import Mathlib

/-!
Verification of the tilt-simulation / cycle-detection core of an
advent-of-code repository (the `day14` module).  The Rust source is shallowly
embedded: machine integers become `Nat`, the panicking index operations become
`Option`-valued accessors, and the imperative loops become structural
recursions over an explicit iteration count.
-/

set_option maxHeartbeats 1000000

/-- The three cell kinds, from `enum Rock` in the source. -/
inductive Rock where
  | Round : Rock
  | Cube : Rock
  | Empty : Rock
deriving DecidableEq

/-- The four compass directions, from `enum Direction` in the source. -/
inductive Direction where
  | North : Direction
  | East : Direction
  | South : Direction
  | West : Direction
deriving DecidableEq

/-- A grid coordinate, from `struct Coord` in the source. -/
structure Coord where
  row : Nat
  col : Nat
deriving DecidableEq

/-- `Coord::from_gravity`: maps a (cross-axis, gravity-axis) index pair to a
concrete (row, col) pair for a given direction and grid size.  `size - gravIdx - 1`
uses truncated `Nat` subtraction exactly where the Rust `usize` arithmetic
cannot underflow at in-bounds call sites. -/
def Coord.fromGravity (crossIdx gravIdx : Nat) (direction : Direction) (size : Nat) : Coord :=
  match direction with
  | Direction.North => { row := gravIdx, col := crossIdx }
  | Direction.South => { row := size - gravIdx - 1, col := crossIdx }
  | Direction.East => { row := crossIdx, col := size - gravIdx - 1 }
  | Direction.West => { row := crossIdx, col := gravIdx }

/-- Inverse of `Coord.fromGravity` (verification helper): recovers the
(cross-axis, gravity-axis) pair of a coordinate. -/
def Coord.toGravity (c : Coord) (direction : Direction) (size : Nat) : Nat × Nat :=
  match direction with
  | Direction.North => (c.col, c.row)
  | Direction.South => (c.col, size - c.row - 1)
  | Direction.East => (c.row, size - c.col - 1)
  | Direction.West => (c.row, c.col)

/-- `struct Platform`: the grid of rocks plus its stored size. -/
structure Platform where
  rocks : List (List Rock)
  size : Nat
deriving DecidableEq

/-- `impl Index<Coord> for Platform`: reading `self.rocks[row][col]`.  The Rust
indexing panics out of bounds; the embedding returns `none` there. -/
def Platform.get? (p : Platform) (c : Coord) : Option Rock :=
  (p.rocks[c.row]?).bind (fun row => row[c.col]?)

/-- `impl IndexMut<Coord> for Platform`: writing `self.rocks[row][col] = r`.
The Rust indexing panics out of bounds; the embedding returns `none` there. -/
def Platform.set? (p : Platform) (c : Coord) (r : Rock) : Option Platform :=
  match p.rocks[c.row]? with
  | none => none
  | some row =>
    if c.col < row.length then
      some { rocks := p.rocks.set c.row (row.set c.col r), size := p.size }
    else none

/-- A platform is square when the stored `size` really is both the number of
rows and the length of every row (the shape every constructor of the source
produces for well-formed puzzle input). -/
def Platform.Square (p : Platform) : Prop :=
  p.rocks.length = p.size ∧ ∀ row ∈ p.rocks, row.length = p.size

instance (p : Platform) : Decidable p.Square := by
  unfold Platform.Square
  infer_instance

/-- Number of `Round` cells in one row. -/
def countRound : List Rock → Nat
  | [] => 0
  | r :: t => (if r = Rock.Round then 1 else 0) + countRound t

/-- Total number of `Round` cells on the platform. -/
def Platform.countRounds (p : Platform) : Nat :=
  (p.rocks.map countRound).sum

/-- One row's contribution to the load: each `Round` cell in row `ri` is worth
`size - ri`, accumulated left to right as in `Platform::load`. -/
def loadRow (size ri : Nat) (row : List Rock) : Nat :=
  row.foldl (fun acc rock => if rock = Rock.Round then acc + (size - ri) else acc) 0

/-- Row-indexed accumulation of `loadRow` over the remaining rows. -/
def loadRows (size : Nat) : Nat → List (List Rock) → Nat
  | _, [] => 0
  | ri, row :: rest => loadRow size ri row + loadRows size (ri + 1) rest

/-- `Platform::load`: sum over all rows (enumerated from 0) of the row load. -/
def Platform.load (p : Platform) : Nat :=
  loadRows p.size 0 p.rocks

/-- `Platform::_apply_partial_gravity`: writes the range of `len` gravity
indices starting at `lo` on cross line `crossIdx`, placing `Round` while the
remaining counter is positive and `Empty` afterwards.  The counter decrement
`roundRocks - 1` is the `Nat` truncation of the guarded Rust decrement. -/
def Platform.applyPartialGravity (p : Platform) (direction : Direction)
    (roundRocks crossIdx lo len : Nat) : Option Platform :=
  match len with
  | 0 => some p
  | Nat.succ len =>
    let coord := Coord.fromGravity crossIdx lo direction p.size
    let rock := if 0 < roundRocks then Rock.Round else Rock.Empty
    match p.set? coord rock with
    | none => none
    | some q => q.applyPartialGravity direction (roundRocks - 1) crossIdx (lo + 1) len

/-- The inner loop of `Platform::tilt` over one cross line: scan the gravity
axis (the remaining `len` indices starting at `gravIdx`), counting `Round`
cells since the last `Cube`, flushing the counted rocks against `bottom`
whenever a `Cube` is met, and flushing the final span at the end. -/
def Platform.tiltLine (p : Platform) (direction : Direction)
    (crossIdx gravIdx roundRocks bottom len : Nat) : Option Platform :=
  match len with
  | 0 => p.applyPartialGravity direction roundRocks crossIdx bottom (p.size - bottom)
  | Nat.succ len =>
    let coord := Coord.fromGravity crossIdx gravIdx direction p.size
    match p.get? coord with
    | none => none
    | some Rock.Round =>
      p.tiltLine direction crossIdx (gravIdx + 1) (roundRocks + 1) bottom len
    | some Rock.Cube =>
      match p.applyPartialGravity direction roundRocks crossIdx bottom (gravIdx - bottom) with
      | none => none
      | some q => q.tiltLine direction crossIdx (gravIdx + 1) 0 (gravIdx + 1) len
    | some Rock.Empty =>
      p.tiltLine direction crossIdx (gravIdx + 1) roundRocks bottom len

/-- The outer loop of `Platform::tilt`: process the remaining `cnt` cross
lines starting at `crossIdx`. -/
def Platform.tiltCross (p : Platform) (direction : Direction) (crossIdx cnt : Nat) :
    Option Platform :=
  match cnt with
  | 0 => some p
  | Nat.succ cnt =>
    match p.tiltLine direction crossIdx 0 0 0 p.size with
    | none => none
    | some q => q.tiltCross direction (crossIdx + 1) cnt

/-- `Platform::tilt`: apply gravity in one direction over all cross lines. -/
def Platform.tilt (p : Platform) (direction : Direction) : Option Platform :=
  p.tiltCross direction 0 p.size

/-- `Platform::cycle`: one spin cycle, tilting North, West, South, East. -/
def Platform.cycle (p : Platform) : Option Platform :=
  match p.tilt Direction.North with
  | none => none
  | some p =>
    match p.tilt Direction.West with
    | none => none
    | some p =>
      match p.tilt Direction.South with
      | none => none
      | some p => p.tilt Direction.East

/-- `k` successive applications of the cycle operator. -/
def iterateCycle : Nat → Platform → Option Platform
  | 0, p => some p
  | Nat.succ n, p =>
    match p.cycle with
    | none => none
    | some q => iterateCycle n q

/-- `struct Cycle` from the source: the cycle-detection record. -/
structure CycleRec where
  offset : Nat
  length : Nat
deriving DecidableEq

/-- `Vec::position`: index of the first element equal to `h`, if any. -/
def listPosition (h : Nat) : List Nat → Option Nat
  | [] => none
  | x :: t => if x = h then some 0 else (listPosition h t).map (fun i => i + 1)

/-- The detection loop of `Part2::solve`.  `obs` is `first_observations`, `it`
the current iteration index, and `fuel = iterations - it` counts the remaining
passes before the `iteration == self.iterations` break.  The state fingerprint
(`DefaultHasher` in the source) is an explicit parameter `hash`. -/
def detectAux (hash : Platform → Nat) (obs : List Nat) (p : Platform) (it fuel : Nat) :
    Option (Option CycleRec × Platform) :=
  match fuel with
  | 0 => some (none, p)
  | Nat.succ fuel =>
    let h := hash p
    match listPosition h obs with
    | some first => some (some { offset := first, length := it - first }, p)
    | none =>
      match p.cycle with
      | none => none
      | some q => detectAux hash (obs ++ [h]) q (it + 1) fuel

/-- `Part2::solve`: run the detection loop; if a cycle record `(offset, length)`
was found, re-simulate `offset + ((T - offset) % length)` cycles from the
original grid, otherwise keep the loop-accumulated grid; return its load. -/
def part2Solve (hash : Platform → Nat) (iterations : Nat) (item : Platform) : Option Nat :=
  match detectAux hash [] item 0 iterations with
  | none => none
  | some (some cyc, _) =>
    let equivalentIterations := cyc.offset + (iterations - cyc.offset) % cyc.length
    (iterateCycle equivalentIterations item).map Platform.load
  | some (none, p) => some p.load

/-- The error type of the `day14` module (`Day14Error::InvalidRock`); the
`IOError` variant never arises in the in-memory core and is omitted. -/
inductive Day14Error where
  | InvalidRock : Day14Error
deriving DecidableEq

/-- `impl TryFrom<char> for Rock`. -/
def rockTryFrom (c : Char) : Except Day14Error Rock :=
  match c with
  | 'O' => Except.ok Rock.Round
  | '#' => Except.ok Rock.Cube
  | '.' => Except.ok Rock.Empty
  | _ => Except.error Day14Error.InvalidRock

/-- Rust's `char::is_whitespace` (the Unicode `White_Space` property),
written over code points. -/
def rustIsWhitespace (c : Char) : Bool :=
  c.toNat = 0x09 || c.toNat = 0x0a || c.toNat = 0x0b || c.toNat = 0x0c ||
    c.toNat = 0x0d || c.toNat = 0x20 || c.toNat = 0x85 || c.toNat = 0xa0 ||
    c.toNat = 0x1680 || (0x2000 <= c.toNat && c.toNat <= 0x200a) ||
    c.toNat = 0x2028 || c.toNat = 0x2029 || c.toNat = 0x202f ||
    c.toNat = 0x205f || c.toNat = 0x3000

/-- Fuel-indexed worker for `str::split_whitespace`; the fuel dominates the
length of the list, so the zero-fuel non-nil case is unreachable. -/
def splitWsF : Nat → List Char → List (List Char)
  | _, [] => []
  | 0, _ :: _ => []
  | Nat.succ n, c :: t =>
    if rustIsWhitespace c then splitWsF n t
    else (c :: t.takeWhile (fun x => !rustIsWhitespace x)) ::
      splitWsF n (t.dropWhile (fun x => !rustIsWhitespace x))

/-- `str::split_whitespace`: the maximal runs of non-whitespace characters, in
order, empty runs skipped. -/
def splitWs (s : List Char) : List (List Char) := splitWsF s.length s

/-- Short-circuiting `collect::<Result<Vec<_>, _>>` over a mapped iterator. -/
def mapExcept (f : α → Except Day14Error β) : List α → Except Day14Error (List β)
  | [] => Except.ok []
  | a :: t =>
    match f a with
    | Except.error e => Except.error e
    | Except.ok b =>
      match mapExcept f t with
      | Except.error e => Except.error e
      | Except.ok bs => Except.ok (b :: bs)

/-- `impl FromStr for Platform` composed with `impl FromIterator<Vec<Rock>>`:
split on whitespace, map each character through `Rock::try_from`, and build a
`Platform` whose `size` is the number of collected rows. -/
def platformFromStr (s : List Char) : Except Day14Error Platform :=
  match mapExcept (fun line => mapExcept rockTryFrom line) (splitWs s) with
  | Except.error e => Except.error e
  | Except.ok rocks => Except.ok { rocks := rocks, size := rocks.length }

/-- Verification-side model of one settled gravity line: `insertEmpty` pushes
one `Empty` past the leading `Round` cells. -/
def insertEmpty : List Rock → List Rock
  | [] => [Rock.Empty]
  | Rock.Round :: l => Rock.Round :: insertEmpty l
  | Rock.Cube :: l => Rock.Empty :: Rock.Cube :: l
  | Rock.Empty :: l => Rock.Empty :: Rock.Empty :: l

/-- Verification-side model of a settled gravity line: within every maximal
`Cube`-free segment all `Round` cells are packed toward index 0. -/
def settle : List Rock → List Rock
  | [] => []
  | Rock.Cube :: t => Rock.Cube :: settle t
  | Rock.Round :: t => Rock.Round :: settle t
  | Rock.Empty :: t => insertEmpty (settle t)

/-- The cell at gravity index `g` of cross line `cross` for direction `d`. -/
def lineGet (p : Platform) (d : Direction) (cross g : Nat) : Option Rock :=
  p.get? (Coord.fromGravity cross g d p.size)

/-- The whole gravity line at cross index `cross` for direction `d`. -/
def lineOf (p : Platform) (d : Direction) (cross : Nat) : List Rock :=
  (List.range p.size).map (fun g => (lineGet p d cross g).getD Rock.Empty)

/-- The cells of `L` at indices `[a, b)`. -/
def lineSlice (L : List Rock) (a b : Nat) : List Rock := (L.drop a).take (b - a)

/-- A line fragment containing no fixed rock. -/
def NoCube (l : List Rock) : Prop := ∀ x ∈ l, x ≠ Rock.Cube

/-- Total version of `Rock::try_from` (defaulting on invalid characters),
used only to state what successful parses produce. -/
def forceRock (c : Char) : Rock :=
  match rockTryFrom c with
  | Except.ok r => r
  | Except.error _ => Rock.Empty

/-- The `i`-th iterate of the cycle operator (total under squareness). -/
def gIter (item : Platform) (i : Nat) : Platform := (iterateCycle i item).getD item

instance : DecidableEq (Except Day14Error Platform) :=
  fun a b =>
    match a, b with
    | Except.ok x, Except.ok y =>
      if h : x = y then Decidable.isTrue (by rw [h]) else Decidable.isFalse (by simp [h])
    | Except.error e, Except.error f =>
      if h : e = f then Decidable.isTrue (by rw [h])
      else Decidable.isFalse (by cases e; cases f; simp at h)
    | Except.ok _, Except.error _ => Decidable.isFalse (by simp)
    | Except.error _, Except.ok _ => Decidable.isFalse (by simp)

theorem length_dropWhileNotWs_le (l : List Char) :
    (l.dropWhile (fun x => !rustIsWhitespace x)).length ≤ l.length := by
  induction l with
  | nil => simp [List.dropWhile]
  | cons c t ih =>
    by_cases h : rustIsWhitespace c
    · simp [List.dropWhile, h]
    · simp only [List.dropWhile, h, Bool.not_false, List.length_cons]
      omega

theorem splitWsF_fuel : ∀ (n : Nat) (s : List Char), s.length ≤ n →
    ∀ m, s.length ≤ m → splitWsF n s = splitWsF m s := by
  intro n
  induction n with
  | zero =>
    intro s hs m hm
    have hnil : s = [] := List.length_eq_zero.mp (by omega)
    subst hnil
    cases m <;> rfl
  | succ n ih =>
    intro s hs m hm
    cases s with
    | nil => cases m <;> rfl
    | cons c t =>
      cases m with
      | zero => simp at hm
      | succ m =>
        simp only [splitWsF]
        by_cases hws : rustIsWhitespace c
        · rw [if_pos hws, if_pos hws]
          exact ih t (by simp at hs; omega) m (by simp at hm; omega)
        · rw [if_neg hws, if_neg hws]
          congr 1
          have hd : (t.dropWhile (fun x => !rustIsWhitespace x)).length ≤ t.length :=
            length_dropWhileNotWs_le t
          exact ih _ (by simp at hs; omega) m (by simp at hm; omega)

theorem splitWs_cons (c : Char) (t : List Char) :
    splitWs (c :: t) = if rustIsWhitespace c then splitWs t
      else (c :: t.takeWhile (fun x => !rustIsWhitespace x)) ::
        splitWs (t.dropWhile (fun x => !rustIsWhitespace x)) := by
  show splitWsF (t.length + 1) (c :: t) = _
  simp only [splitWsF]
  by_cases hws : rustIsWhitespace c
  · rw [if_pos hws, if_pos hws]
    rfl
  · rw [if_neg hws, if_neg hws]
    congr 1
    exact splitWsF_fuel t.length _ (length_dropWhileNotWs_le t) _ (Nat.le_refl _)

/-! ### Coordinate-mapping lemmas -/

theorem Coord.fromGravity_bounds {N ci gi : Nat} (d : Direction) (hc : ci < N) (hg : gi < N) :
    (Coord.fromGravity ci gi d N).row < N ∧ (Coord.fromGravity ci gi d N).col < N := by
  cases d <;> simp only [Coord.fromGravity] <;> omega

theorem Coord.fromGravity_inj {N ci gi ci' gi' : Nat} (d : Direction)
    (hc : ci < N) (hg : gi < N) (hc' : ci' < N) (hg' : gi' < N)
    (h : Coord.fromGravity ci gi d N = Coord.fromGravity ci' gi' d N) :
    ci = ci' ∧ gi = gi' := by
  cases d <;> simp only [Coord.fromGravity, Coord.mk.injEq] at h <;> omega

theorem Coord.toGravity_fromGravity {N ci gi : Nat} (d : Direction) (hc : ci < N) (hg : gi < N) :
    (Coord.fromGravity ci gi d N).toGravity d N = (ci, gi) := by
  cases d <;> simp [Coord.fromGravity, Coord.toGravity, Prod.ext_iff] <;> omega

theorem Coord.toGravity_bounds {N : Nat} (d : Direction) {c : Coord}
    (hr : c.row < N) (hc : c.col < N) :
    (c.toGravity d N).1 < N ∧ (c.toGravity d N).2 < N := by
  cases d <;> simp [Coord.toGravity] <;> omega

theorem Coord.fromGravity_toGravity {N : Nat} (d : Direction) {c : Coord}
    (hr : c.row < N) (hc : c.col < N) :
    Coord.fromGravity (c.toGravity d N).1 (c.toGravity d N).2 d N = c := by
  cases c with
  | mk r cl =>
    simp only at hr hc
    cases d <;> simp [Coord.fromGravity, Coord.toGravity, Coord.mk.injEq] <;> omega

/-! ### Cell accessor lemmas -/

theorem List.mem_of_getElem?' {l : List α} {i : Nat} {a : α} (h : l[i]? = some a) : a ∈ l := by
  obtain ⟨hlt, heq⟩ := List.getElem?_eq_some_iff.mp h
  exact heq ▸ List.getElem_mem hlt

theorem Platform.get?_isSome_of_square {p : Platform} (hsq : p.Square) {c : Coord}
    (hr : c.row < p.size) (hc : c.col < p.size) : ∃ r, p.get? c = some r := by
  obtain ⟨hlen, hrow⟩ := hsq
  have h1 : c.row < p.rocks.length := by omega
  have h2 : p.rocks[c.row]? = some p.rocks[c.row] := List.getElem?_eq_getElem h1
  have h3 : p.rocks[c.row].length = p.size := hrow _ (List.getElem_mem h1)
  have h4 : c.col < p.rocks[c.row].length := by omega
  exact ⟨p.rocks[c.row][c.col], by simp [Platform.get?, h2, List.getElem?_eq_getElem h4]⟩

theorem Platform.get?_eq_none_of_oob {p : Platform} (hsq : p.Square) {c : Coord}
    (h : p.size ≤ c.row ∨ p.size ≤ c.col) : p.get? c = none := by
  obtain ⟨hlen, hrow⟩ := hsq
  unfold Platform.get?
  rcases h with h | h
  · have hnone : p.rocks[c.row]? = none := by
      rw [List.getElem?_eq_none_iff]
      omega
    simp [hnone]
  · cases hrw : p.rocks[c.row]? with
    | none => simp
    | some row =>
      have hl : row.length = p.size := hrow _ (List.mem_of_getElem?' hrw)
      have : row[c.col]? = none := by
        rw [List.getElem?_eq_none_iff]
        omega
      simp [this]

theorem Platform.set?_spec {p : Platform} (hsq : p.Square) {c : Coord}
    (hr : c.row < p.size) (hc : c.col < p.size) (r : Rock) :
    ∃ q, p.set? c r = some q ∧ q.Square ∧ q.size = p.size ∧
      q.get? c = some r ∧ ∀ c' : Coord, c' ≠ c → q.get? c' = p.get? c' := by
  obtain ⟨hlen, hrow⟩ := hsq
  have h1 : c.row < p.rocks.length := by omega
  have h2 : p.rocks[c.row]? = some p.rocks[c.row] := List.getElem?_eq_getElem h1
  have h3 : p.rocks[c.row].length = p.size := hrow _ (List.getElem_mem h1)
  have h4 : c.col < p.rocks[c.row].length := by omega
  refine ⟨{ rocks := p.rocks.set c.row (p.rocks[c.row].set c.col r), size := p.size },
    ?_, ⟨?_, ?_⟩, rfl, ?_, ?_⟩
  · simp only [Platform.set?, h2, if_pos h4]
  · simpa using hlen
  · intro row' hmem
    simp only at hmem
    rcases List.mem_or_eq_of_mem_set hmem with hm | hm
    · exact hrow _ hm
    · subst hm
      simp [h3]
  · unfold Platform.get?
    simp only
    rw [List.getElem?_set_eq_of_lt _ h1]
    simp only [Option.some_bind]
    rw [List.getElem?_set_eq_of_lt _ h4]
  · intro c' hne
    unfold Platform.get?
    simp only
    by_cases hrw : c'.row = c.row
    · have hcl : c'.col ≠ c.col := by
        intro hcc
        apply hne
        cases c; cases c'
        simp only [Coord.mk.injEq]
        simp only at hrw hcc
        exact ⟨hrw, hcc⟩
      rw [hrw, List.getElem?_set_eq_of_lt _ h1, h2]
      simp only [Option.some_bind]
      rw [List.getElem?_set_ne (fun hx => hcl hx.symm)]
    · rw [List.getElem?_set_ne (fun hx => hrw hx.symm)]

/-! ### Gravity lines -/

theorem lineOf_length (p : Platform) (d : Direction) (cross : Nat) :
    (lineOf p d cross).length = p.size := by
  simp [lineOf]

theorem lineGet_isSome {p : Platform} (hsq : p.Square) (d : Direction) {cross g : Nat}
    (hcross : cross < p.size) (hg : g < p.size) : ∃ r, lineGet p d cross g = some r := by
  obtain ⟨h1, h2⟩ := Coord.fromGravity_bounds d hcross hg
  exact Platform.get?_isSome_of_square ⟨hsq.1, hsq.2⟩ h1 h2

theorem lineOf_getElem? {p : Platform} (hsq : p.Square) (d : Direction) {cross g : Nat}
    (hcross : cross < p.size) (hg : g < p.size) :
    (lineOf p d cross)[g]? = lineGet p d cross g := by
  obtain ⟨r, hr⟩ := lineGet_isSome hsq d hcross hg
  simp [lineOf, List.getElem?_map, List.getElem?_range, hg, hr]

/-! ### `_apply_partial_gravity` specification -/

theorem Platform.applyPartialGravity_spec {p : Platform} (hsq : p.Square) (d : Direction)
    {cross : Nat} (r lo len : Nat) (hcross : cross < p.size) (hrange : lo + len ≤ p.size) :
    ∃ q, p.applyPartialGravity d r cross lo len = some q ∧ q.Square ∧ q.size = p.size ∧
      (∀ c' : Coord, (∀ g, lo ≤ g → g < lo + len → c' ≠ Coord.fromGravity cross g d p.size) →
        q.get? c' = p.get? c') ∧
      (∀ g, lo ≤ g → g < lo + len →
        q.get? (Coord.fromGravity cross g d p.size) =
          some (if g < lo + r then Rock.Round else Rock.Empty)) := by
  induction len generalizing p lo r with
  | zero =>
    refine ⟨p, rfl, hsq, rfl, fun c' _ => rfl, fun g hg1 hg2 => ?_⟩
    omega
  | succ len ih =>
    have hlo : lo < p.size := by omega
    obtain ⟨hrw, hcl⟩ := Coord.fromGravity_bounds (N := p.size) d hcross hlo
    obtain ⟨q₁, hset, hq₁sq, hq₁sz, hq₁get, hq₁frame⟩ :=
      Platform.set?_spec ⟨hsq.1, hsq.2⟩ hrw hcl
        (if 0 < r then Rock.Round else Rock.Empty)
    obtain ⟨q₂, hrec, hq₂sq, hq₂sz, hframe, hwrite⟩ :=
      ih (p := q₁) hq₁sq (r - 1) (lo + 1)
        (by omega) (by omega)
    have hsz12 : q₁.size = p.size := hq₁sz
    refine ⟨q₂, ?_, hq₂sq, by omega, ?_, ?_⟩
    · simp only [Platform.applyPartialGravity]
      rw [hset]
      exact hrec
    · intro c' hc'
      rw [hframe c' ?_, hq₁frame c' ?_]
      · exact hc' lo (Nat.le_refl lo) (by omega)
      · intro g hg1 hg2
        rw [hsz12]
        exact hc' g (by omega) (by omega)
    · intro g hg1 hg2
      by_cases hgl : g = lo
      · subst hgl
        rw [hframe _ ?_]
        · rw [hq₁get]
          congr 1
          by_cases hr0 : 0 < r
          · rw [if_pos hr0, if_pos (by omega)]
          · rw [if_neg hr0, if_neg (by omega)]
        · intro g' hg1' hg2' heq
          rw [hsz12] at heq
          have := Coord.fromGravity_inj d hcross hlo hcross (by omega) heq
          omega
      · have hg1' : lo + 1 ≤ g := by omega
        have := hwrite g hg1' (by omega)
        rw [hsz12] at this
        rw [this]
        congr 1
        by_cases hgr : g < lo + r
        · rw [if_pos (by omega), if_pos hgr]
        · rw [if_neg (by omega), if_neg hgr]

/-! ### Lemmas about the settled-line model -/

theorem insertEmpty_length (l : List Rock) : (insertEmpty l).length = l.length + 1 := by
  induction l with
  | nil => rfl
  | cons r t ih => cases r <;> simp [insertEmpty, ih]

theorem settle_length (l : List Rock) : (settle l).length = l.length := by
  induction l with
  | nil => rfl
  | cons r t ih => cases r <;> simp [settle, insertEmpty_length, ih]

theorem countRound_insertEmpty (l : List Rock) : countRound (insertEmpty l) = countRound l := by
  induction l with
  | nil => rfl
  | cons r t ih => cases r <;> simp [insertEmpty, countRound, ih]

theorem countRound_settle (l : List Rock) : countRound (settle l) = countRound l := by
  induction l with
  | nil => rfl
  | cons r t ih => cases r <;> simp [settle, countRound, countRound_insertEmpty, ih]

theorem countRound_le_length (l : List Rock) : countRound l ≤ l.length := by
  induction l with
  | nil => simp [countRound]
  | cons r t ih =>
    simp only [countRound, List.length_cons]
    by_cases h : r = Rock.Round <;> simp [h] <;> omega

theorem cons_cube_iff {a b : Rock} (ha : a ≠ Rock.Cube) (hb : b ≠ Rock.Cube)
    (l : List Rock) (i : Nat) :
    ((a :: l)[i]? = some Rock.Cube ↔ (b :: l)[i]? = some Rock.Cube) := by
  cases i with
  | zero => simp [ha, hb]
  | succ j => simp

theorem insertEmpty_cube_iff (l : List Rock) (i : Nat) :
    ((insertEmpty l)[i]? = some Rock.Cube ↔ (Rock.Empty :: l)[i]? = some Rock.Cube) := by
  induction l generalizing i with
  | nil => exact Iff.rfl
  | cons r t ih =>
    cases r with
    | Round =>
      cases i with
      | zero => simp [insertEmpty]
      | succ j =>
        simp only [insertEmpty, List.getElem?_cons_succ]
        exact (ih j).trans (cons_cube_iff (by simp) (by simp) t j)
    | Cube => exact Iff.rfl
    | Empty => exact Iff.rfl

theorem settle_cube_iff (l : List Rock) (i : Nat) :
    ((settle l)[i]? = some Rock.Cube ↔ l[i]? = some Rock.Cube) := by
  induction l generalizing i with
  | nil => exact Iff.rfl
  | cons r t ih =>
    cases r with
    | Round =>
      cases i with
      | zero => simp [settle]
      | succ j => simpa [settle] using ih j
    | Cube =>
      cases i with
      | zero => simp [settle]
      | succ j => simpa [settle] using ih j
    | Empty =>
      simp only [settle]
      refine (insertEmpty_cube_iff (settle t) i).trans ?_
      cases i with
      | zero => simp
      | succ j => simpa using ih j

theorem insertEmpty_normal (k m : Nat) :
    insertEmpty (List.replicate k Rock.Round ++ List.replicate m Rock.Empty) =
      List.replicate k Rock.Round ++ List.replicate (m + 1) Rock.Empty := by
  induction k with
  | zero =>
    cases m with
    | zero => rfl
    | succ m => simp [List.replicate_succ, insertEmpty]
  | succ k ih => simp [List.replicate_succ, insertEmpty, ih]

theorem settle_of_noCube {l : List Rock} (h : NoCube l) :
    settle l = List.replicate (countRound l) Rock.Round ++
      List.replicate (l.length - countRound l) Rock.Empty := by
  induction l with
  | nil => rfl
  | cons r t ih =>
    have ht : NoCube t := fun x hx => h x (List.mem_cons_of_mem r hx)
    have hct : countRound t ≤ t.length := countRound_le_length t
    cases r with
    | Round =>
      have : countRound (Rock.Round :: t) = countRound t + 1 := by simp [countRound]; omega
      rw [this]
      have hl : (Rock.Round :: t).length - (countRound t + 1) = t.length - countRound t := by
        simp
      rw [hl]
      simp only [settle, ih ht, List.replicate_succ]
      rfl
    | Cube => exact absurd rfl (h Rock.Cube (List.mem_cons_self Rock.Cube t))
    | Empty =>
      have : countRound (Rock.Empty :: t) = countRound t := by simp [countRound]
      rw [this]
      have hl : (Rock.Empty :: t).length - countRound t = (t.length - countRound t) + 1 := by
        simp
        omega
      rw [hl]
      simp only [settle, ih ht]
      exact insertEmpty_normal _ _

theorem insertEmpty_append_cube (a z : List Rock) :
    insertEmpty (a ++ Rock.Cube :: z) = insertEmpty a ++ Rock.Cube :: z := by
  induction a with
  | nil => rfl
  | cons r t ih => cases r <;> simp [insertEmpty, ih]

theorem settle_append_cube (s t : List Rock) :
    settle (s ++ Rock.Cube :: t) = settle s ++ Rock.Cube :: settle t := by
  induction s with
  | nil => rfl
  | cons r s' ih =>
    cases r with
    | Round => simp [settle, ih]
    | Cube => simp [settle, ih]
    | Empty =>
      simp only [List.cons_append, settle, List.append_eq, ih]
      exact insertEmpty_append_cube _ _

theorem settle_insertEmpty (m : List Rock) :
    settle (insertEmpty m) = insertEmpty (settle m) := by
  induction m with
  | nil => rfl
  | cons r t ih =>
    cases r with
    | Round => simp [insertEmpty, settle, ih]
    | Cube => simp [insertEmpty, settle]
    | Empty => simp [insertEmpty, settle]

theorem settle_idem (l : List Rock) : settle (settle l) = settle l := by
  induction l with
  | nil => rfl
  | cons r t ih =>
    cases r with
    | Round => simp [settle, ih]
    | Cube => simp [settle, ih]
    | Empty =>
      simp only [settle]
      rw [settle_insertEmpty, ih]

theorem normal_getElem? (a b i : Nat) (h : i < a + b) :
    (List.replicate a Rock.Round ++ List.replicate b Rock.Empty)[i]? =
      some (if i < a then Rock.Round else Rock.Empty) := by
  rw [List.getElem?_append]
  by_cases hia : i < a
  · simp [hia, List.getElem?_replicate]
  · have : i - a < b := by omega
    simp [hia, List.getElem?_replicate, this]

/-! ### Line slices -/

theorem lineSlice_self (L : List Rock) (a : Nat) : lineSlice L a a = [] := by
  simp [lineSlice]

theorem lineSlice_length (L : List Rock) {a b : Nat} (hab : a ≤ b) (hb : b ≤ L.length) :
    (lineSlice L a b).length = b - a := by
  simp [lineSlice, List.length_take, List.length_drop]
  omega

theorem lineSlice_succ {L : List Rock} {a j : Nat} {x : Rock} (haj : a ≤ j) (hx : L[j]? = some x) :
    lineSlice L a (j + 1) = lineSlice L a j ++ [x] := by
  have hj : j < L.length := (List.getElem?_eq_some_iff.mp hx).1
  unfold lineSlice
  have h1 : j + 1 - a = (j - a) + 1 := by omega
  rw [h1, List.take_succ]
  congr 1
  have h2 : (L.drop a)[j - a]? = L[a + (j - a)]? := List.getElem?_drop L a (j - a)
  have h3 : a + (j - a) = j := by omega
  rw [h2, h3, hx]
  rfl

theorem lineSlice_full (L : List Rock) (a : Nat) : lineSlice L a L.length = L.drop a := by
  unfold lineSlice
  apply List.take_of_length_le
  simp [List.length_drop]

theorem drop_decomp {L : List Rock} {b j : Nat} {x : Rock} (hbj : b ≤ j) (hx : L[j]? = some x) :
    L.drop b = lineSlice L b j ++ x :: L.drop (j + 1) := by
  have hj : j < L.length := (List.getElem?_eq_some_iff.mp hx).1
  have h1 : lineSlice L b j ++ (L.drop b).drop (j - b) = L.drop b := by
    unfold lineSlice
    exact List.take_append_drop (j - b) (L.drop b)
  have h2 : (L.drop b).drop (j - b) = L.drop j := by
    rw [List.drop_drop]
    congr 1
    omega
  have h3 : L.drop j = x :: L.drop (j + 1) := by
    have := List.drop_eq_getElem_cons hj
    rw [this]
    have : L[j] = x := by
      have := List.getElem?_eq_getElem hj
      rw [this] at hx
      exact Option.some.inj hx
    rw [this]
  rw [← h1, h2, h3]

theorem countRound_append (a b : List Rock) :
    countRound (a ++ b) = countRound a + countRound b := by
  induction a with
  | nil => simp [countRound]
  | cons r t ih => simp [countRound, ih]; omega

/-! ### `tilt` inner-loop specification -/

theorem Platform.tiltLine_spec {p : Platform} (hsq : p.Square) (d : Direction)
    {cross : Nat} (hcross : cross < p.size) (L : List Rock) (hL : L.length = p.size)
    (j len b r : Nat) (hjlen : j + len = p.size) (hbj : b ≤ j)
    (hr : r = countRound (lineSlice L b j))
    (hnc : NoCube (lineSlice L b j))
    (hdrop : (settle L).drop b = settle (L.drop b))
    (h4 : ∀ g, b ≤ g → g < p.size → lineGet p d cross g = L[g]?)
    (h5 : ∀ g, g < b → lineGet p d cross g = (settle L)[g]?) :
    ∃ q, p.tiltLine d cross j r b len = some q ∧ q.Square ∧ q.size = p.size ∧
      (∀ c' : Coord, (∀ g, g < p.size → c' ≠ Coord.fromGravity cross g d p.size) →
        q.get? c' = p.get? c') ∧
      (∀ g, g < p.size → lineGet q d cross g = (settle L)[g]?) := by
  induction len generalizing p j b r with
  | zero =>
    -- j = p.size: final flush over [b, p.size)
    have hj : j = p.size := by omega
    subst hj
    obtain ⟨q, happ, hqsq, hqsz, hframe, hwrite⟩ :=
      Platform.applyPartialGravity_spec hsq d r b (p.size - b) hcross (by omega)
    have hsettle_len : (settle L).length = p.size := by rw [settle_length, hL]
    have hrle : r ≤ p.size - b := by
      rw [hr]
      have := countRound_le_length (lineSlice L b p.size)
      rw [lineSlice_length L hbj (by omega)] at this
      omega
    -- the settled tail in normal form
    have htail : settle (L.drop b) =
        List.replicate r Rock.Round ++ List.replicate ((p.size - b) - r) Rock.Empty := by
      have hnc' : NoCube (L.drop b) := by
        have := hnc
        rw [← hL, lineSlice_full] at this
        exact this
      have hcnt : countRound (L.drop b) = r := by
        rw [hr]
        congr 1
        rw [← hL, lineSlice_full]
      rw [settle_of_noCube hnc', hcnt, List.length_drop, hL]
    refine ⟨q, happ, hqsq, hqsz, ?_, ?_⟩
    · intro c' hc'
      exact hframe c' (fun g hg1 hg2 => hc' g (by omega))
    · intro g hg
      unfold lineGet
      rw [hqsz]
      by_cases hgb : g < b
      · rw [hframe _ ?_]
        · exact h5 g hgb
        · intro g' hg1' hg2' heq
          have := Coord.fromGravity_inj d hcross hg hcross (by omega) heq
          omega
      · have hbg : b ≤ g := by omega
        rw [hwrite g hbg (by omega)]
        have h6 : (settle L)[g]? = ((settle L).drop b)[g - b]? := by
          rw [List.getElem?_drop]
          congr 1
          omega
        rw [h6, hdrop, htail, normal_getElem? _ _ _ (by omega)]
        congr 1
        by_cases hgr : g < b + r
        · rw [if_pos hgr, if_pos (show g - b < r by omega)]
        · rw [if_neg hgr, if_neg (show ¬(g - b < r) by omega)]
  | succ len ih =>
    have hjlt : j < p.size := by omega
    have hjL : j < L.length := by omega
    obtain ⟨x, hx⟩ : ∃ x, L[j]? = some x := ⟨L[j], List.getElem?_eq_getElem hjL⟩
    have hget : p.get? (Coord.fromGravity cross j d p.size) = some x := by
      have := h4 j hbj hjlt
      unfold lineGet at this
      rw [this, hx]
    cases x with
    | Round =>
      obtain ⟨q, hrec, hqsq, hqsz, hframe, hline⟩ :=
        ih hsq hcross hL (j + 1) b (r + 1) (by omega) (by omega)
          (by rw [lineSlice_succ hbj hx, countRound_append, ← hr]; simp [countRound])
          (by
            rw [lineSlice_succ hbj hx]
            intro y hy
            rcases List.mem_append.mp hy with hy | hy
            · exact hnc y hy
            · simp at hy
              subst hy
              simp)
          hdrop h4 h5
      refine ⟨q, ?_, hqsq, hqsz, hframe, hline⟩
      simp only [Platform.tiltLine, hget]
      exact hrec
    | Empty =>
      obtain ⟨q, hrec, hqsq, hqsz, hframe, hline⟩ :=
        ih hsq hcross hL (j + 1) b r (by omega) (by omega)
          (by rw [lineSlice_succ hbj hx, countRound_append, ← hr]; simp [countRound])
          (by
            rw [lineSlice_succ hbj hx]
            intro y hy
            rcases List.mem_append.mp hy with hy | hy
            · exact hnc y hy
            · simp at hy
              subst hy
              simp)
          hdrop h4 h5
      refine ⟨q, ?_, hqsq, hqsz, hframe, hline⟩
      simp only [Platform.tiltLine, hget]
      exact hrec
    | Cube =>
      -- flush [b, j), then continue with bottom = j+1, count 0
      obtain ⟨q₁, happ, hq₁sq, hq₁sz, hfr₁, hwr₁⟩ :=
        Platform.applyPartialGravity_spec hsq d r b (j - b) hcross (by omega)
      have hdecomp : L.drop b = lineSlice L b j ++ Rock.Cube :: L.drop (j + 1) :=
        drop_decomp hbj hx
      have hslice_len : (lineSlice L b j).length = j - b := lineSlice_length L hbj (by omega)
      have hsettle_slice : settle (lineSlice L b j) =
          List.replicate r Rock.Round ++ List.replicate ((j - b) - r) Rock.Empty := by
        rw [settle_of_noCube hnc, ← hr, hslice_len]
      have hrle : r ≤ j - b := by
        rw [hr]
        have := countRound_le_length (lineSlice L b j)
        omega
      have hdropb : (settle L).drop b = settle (lineSlice L b j) ++ Rock.Cube :: settle (L.drop (j + 1)) := by
        rw [hdrop, hdecomp, settle_append_cube]
      have hdrop' : (settle L).drop (j + 1) = settle (L.drop (j + 1)) := by
        have h1 : (settle L).drop (j + 1) = ((settle L).drop b).drop (j + 1 - b) := by
          rw [List.drop_drop]
          congr 1
          omega
        rw [h1, hdropb]
        have h2 : settle (lineSlice L b j) ++ Rock.Cube :: settle (L.drop (j + 1)) =
            (settle (lineSlice L b j) ++ [Rock.Cube]) ++ settle (L.drop (j + 1)) := by
          simp
        rw [h2, List.drop_left' ?_]
        rw [List.length_append, settle_length, hslice_len]
        simp
        omega
      -- the platform after the flush, line values
      have hq₁line : ∀ g, g < p.size → lineGet q₁ d cross g =
          (if g < b then (settle L)[g]?
           else if g < j then some (if g < b + r then Rock.Round else Rock.Empty)
           else L[g]?) := by
        intro g hg
        unfold lineGet
        rw [hq₁sz]
        by_cases hgb : g < b
        · rw [hfr₁ _ ?_, if_pos hgb]
          · exact h5 g hgb
          · intro g' hg1' hg2' heq
            have := Coord.fromGravity_inj d hcross hg hcross (by omega) heq
            omega
        · by_cases hgj : g < j
          · rw [if_neg hgb, if_pos hgj]
            exact hwr₁ g (by omega) (by omega)
          · rw [if_neg hgb, if_neg hgj]
            rw [hfr₁ _ ?_]
            · exact h4 g (by omega) hg
            · intro g' hg1' hg2' heq
              have := Coord.fromGravity_inj d hcross hg hcross (by omega) heq
              omega
      obtain ⟨q₂, hrec, hq₂sq, hq₂sz, hframe₂, hline₂⟩ :=
        ih (p := q₁) hq₁sq (by omega) (by omega) (j + 1) (j + 1) 0
          (by omega) (by omega)
          (by rw [lineSlice_self]; rfl)
          (by rw [lineSlice_self]; intro y hy; simp at hy)
          hdrop'
          (by
            intro g hg1 hg2
            rw [hq₁sz] at hg2
            rw [hq₁line g hg2, if_neg (by omega), if_neg (by omega)])
          (by
            intro g hg1
            have hg : g < p.size := by omega
            rw [hq₁line g hg]
            by_cases hgb : g < b
            · rw [if_pos hgb]
            · by_cases hgj : g < j
              · rw [if_neg hgb, if_pos hgj]
                have h6 : (settle L)[g]? = ((settle L).drop b)[g - b]? := by
                  rw [List.getElem?_drop]
                  congr 1
                  omega
                rw [h6, hdropb]
                have h7 : (settle (lineSlice L b j) ++ Rock.Cube :: settle (L.drop (j + 1)))[g - b]? =
                    (settle (lineSlice L b j))[g - b]? := by
                  rw [List.getElem?_append]
                  rw [if_pos ?_]
                  rw [settle_length, hslice_len]
                  omega
                rw [h7, hsettle_slice, normal_getElem? _ _ _ (by omega)]
                congr 1
                by_cases hgr : g < b + r
                · rw [if_pos hgr, if_pos (show g - b < r by omega)]
                · rw [if_neg hgr, if_neg (show ¬(g - b < r) by omega)]
              · -- g = j: the cube itself
                have hgj' : g = j := by omega
                subst hgj'
                rw [if_neg hgb, if_neg (by omega)]
                rw [hx]
                symm
                exact (settle_cube_iff L g).mpr hx)
      have hline : ∀ g, g < p.size → lineGet q₂ d cross g = (settle L)[g]? := by
        intro g hg
        exact hline₂ g (by omega)
      refine ⟨q₂, ?_, hq₂sq, by omega, ?_, ?_⟩
      · simp only [Platform.tiltLine, hget]
        rw [happ]
        exact hrec
      · intro c' hc'
        rw [hframe₂ c' ?_, hfr₁ c' ?_]
        · intro g hg1 hg2
          exact hc' g (by omega)
        · intro g hg
          rw [hq₁sz]
          exact hc' g (by omega)
      · intro g hg
        have := hline g hg
        exact this

theorem lineOf_congr {p q : Platform} (hsz : q.size = p.size) {cross : Nat}
    (h : ∀ g, g < p.size → lineGet q d cross g = lineGet p d cross g) :
    lineOf q d cross = lineOf p d cross := by
  unfold lineOf
  rw [hsz]
  apply List.map_congr_left
  intro g hg
  rw [h g (List.mem_range.mp hg)]

theorem Platform.tiltCross_spec {p : Platform} (hsq : p.Square) (d : Direction)
    (cIdx cnt : Nat) (hrange : cIdx + cnt ≤ p.size) :
    ∃ q, p.tiltCross d cIdx cnt = some q ∧ q.Square ∧ q.size = p.size ∧
      (∀ cross g, cross < p.size → g < p.size →
        (cIdx ≤ cross → cross < cIdx + cnt →
          lineGet q d cross g = (settle (lineOf p d cross))[g]?) ∧
        ((cross < cIdx ∨ cIdx + cnt ≤ cross) → lineGet q d cross g = lineGet p d cross g)) := by
  induction cnt generalizing p cIdx with
  | zero =>
    refine ⟨p, rfl, hsq, rfl, fun cross g hcr hg => ⟨fun h1 h2 => ?_, fun _ => rfl⟩⟩
    omega
  | succ cnt ihc =>
    have hcr : cIdx < p.size := by omega
    obtain ⟨q₁, hline1, hq₁sq, hq₁sz, hfr₁, hln₁⟩ :=
      Platform.tiltLine_spec hsq d hcr (lineOf p d cIdx) (lineOf_length p d cIdx)
        0 p.size 0 0
        (by omega) (Nat.le_refl 0)
        (by rw [lineSlice_self]; rfl)
        (by rw [lineSlice_self]; intro y hy; simp at hy)
        (by simp)
        (fun g hg1 hg2 => (lineOf_getElem? hsq d hcr hg2).symm)
        (fun g hg => by omega)
    -- other lines of q₁ agree with p
    have hother : ∀ cross, cross < p.size → cross ≠ cIdx →
        ∀ g, g < p.size → lineGet q₁ d cross g = lineGet p d cross g := by
      intro cross hcrs hne g hg
      unfold lineGet
      rw [hq₁sz]
      apply hfr₁
      intro g' hg' heq
      have := Coord.fromGravity_inj d hcrs hg hcr hg' heq
      omega
    obtain ⟨q₂, hrest, hq₂sq, hq₂sz, hprops⟩ :=
      ihc (p := q₁) hq₁sq (cIdx + 1) (by omega)
    refine ⟨q₂, ?_, hq₂sq, by omega, ?_⟩
    · simp only [Platform.tiltCross]
      rw [hline1]
      exact hrest
    · intro cross g hcrs hg
      have hcrs1 : cross < q₁.size := by omega
      have hg1 : g < q₁.size := by omega
      constructor
      · intro h1 h2
        by_cases hci : cross = cIdx
        · subst hci
          have := (hprops cross g hcrs1 hg1).2 (Or.inl (by omega))
          rw [this]
          exact hln₁ g hg
        · have := (hprops cross g hcrs1 hg1).1 (by omega) (by omega)
          rw [this]
          congr 2
          exact lineOf_congr hq₁sz (hother cross hcrs hci)
      · intro hout
        have := (hprops cross g hcrs1 hg1).2 (by omega)
        rw [this]
        exact hother cross hcrs (by omega) g hg

theorem Platform.tilt_spec {p : Platform} (hsq : p.Square) (d : Direction) :
    ∃ q, p.tilt d = some q ∧ q.Square ∧ q.size = p.size ∧
      ∀ cross, cross < p.size → lineOf q d cross = settle (lineOf p d cross) := by
  obtain ⟨q, hq, hqsq, hqsz, hprops⟩ :=
    Platform.tiltCross_spec hsq d 0 p.size (by omega)
  refine ⟨q, hq, hqsq, hqsz, ?_⟩
  intro cross hcross
  apply List.ext_getElem?
  intro g
  by_cases hg : g < p.size
  · rw [lineOf_getElem? hqsq d (by omega) (by omega)]
    rw [(hprops cross g hcross hg).1 (by omega) (by omega)]
  · have h1 : (lineOf q d cross).length ≤ g := by
      rw [lineOf_length]
      omega
    have h2 : (settle (lineOf p d cross)).length ≤ g := by
      rw [settle_length, lineOf_length]
      omega
    rw [List.getElem?_eq_none_iff.mpr h1, List.getElem?_eq_none_iff.mpr h2]

/-! ### Counting `Round` cells through the gravity-line decomposition -/

theorem countRound_eq_sum (l : List Rock) :
    countRound l = Finset.sum (Finset.range l.length)
      (fun i => if l[i]? = some Rock.Round then 1 else 0) := by
  induction l with
  | nil => simp [countRound]
  | cons r t ih =>
    simp only [countRound, List.length_cons, Finset.sum_range_succ',
      List.getElem?_cons_succ, List.getElem?_cons_zero]
    rw [← ih]
    by_cases h : r = Rock.Round
    · simp [h]
      omega
    · have : (some r = some Rock.Round) = False := by
        simp [h]
      simp [h, this]

theorem map_sum_eq_sum_range (f : List Rock → Nat) (l : List (List Rock)) :
    (l.map f).sum = Finset.sum (Finset.range l.length) (fun i => f (l[i]?.getD [])) := by
  induction l with
  | nil => simp
  | cons a t ih =>
    simp only [List.map_cons, List.sum_cons, List.length_cons, Finset.sum_range_succ',
      List.getElem?_cons_succ, List.getElem?_cons_zero]
    rw [ih]
    simp [Nat.add_comm]

theorem countRounds_eq_lines {p : Platform} (hsq : p.Square) (d : Direction) :
    p.countRounds = Finset.sum (Finset.range p.size)
      (fun cross => countRound (lineOf p d cross)) := by
  obtain ⟨hlen, hrow⟩ := hsq
  have hrows : p.countRounds = Finset.sum (Finset.range p.size)
      (fun ri => Finset.sum (Finset.range p.size)
        (fun ci => if p.get? ⟨ri, ci⟩ = some Rock.Round then 1 else 0)) := by
    unfold Platform.countRounds
    rw [map_sum_eq_sum_range, hlen]
    apply Finset.sum_congr rfl
    intro ri hri
    have hri' : ri < p.size := Finset.mem_range.mp hri
    have h1 : ri < p.rocks.length := by omega
    have h2 : p.rocks[ri]? = some p.rocks[ri] := List.getElem?_eq_getElem h1
    have h3 : p.rocks[ri].length = p.size := hrow _ (List.getElem_mem h1)
    rw [countRound_eq_sum]
    simp only [h2, Option.getD_some, h3]
    apply Finset.sum_congr rfl
    intro ci hci
    have hcc : p.rocks[ri][ci]? = p.get? ⟨ri, ci⟩ := by
      simp [Platform.get?, h2]
    rw [hcc]
  have hlines : ∀ cross, cross < p.size → countRound (lineOf p d cross) =
      Finset.sum (Finset.range p.size)
        (fun g => if p.get? (Coord.fromGravity cross g d p.size) = some Rock.Round
          then 1 else 0) := by
    intro cross hcross
    rw [countRound_eq_sum, lineOf_length]
    apply Finset.sum_congr rfl
    intro g hg
    rw [lineOf_getElem? ⟨hlen, hrow⟩ d hcross (Finset.mem_range.mp hg)]
    rfl
  rw [hrows]
  rw [← Finset.sum_product (Finset.range p.size) (Finset.range p.size)
    (fun x => if p.get? ⟨x.1, x.2⟩ = some Rock.Round then 1 else 0)]
  have hrhs : Finset.sum (Finset.range p.size) (fun cross => countRound (lineOf p d cross)) =
      Finset.sum (Finset.range p.size ×ˢ Finset.range p.size)
        (fun y => if p.get? (Coord.fromGravity y.1 y.2 d p.size) = some Rock.Round
          then 1 else 0) := by
    rw [Finset.sum_product (Finset.range p.size) (Finset.range p.size)
      (fun y => if p.get? (Coord.fromGravity y.1 y.2 d p.size) = some Rock.Round
        then 1 else 0)]
    apply Finset.sum_congr rfl
    intro cross hcross
    exact hlines cross (Finset.mem_range.mp hcross)
  rw [hrhs]
  apply Finset.sum_nbij'
    (fun a => Coord.toGravity ⟨a.1, a.2⟩ d p.size)
    (fun y => ((Coord.fromGravity y.1 y.2 d p.size).row, (Coord.fromGravity y.1 y.2 d p.size).col))
  · intro a ha
    obtain ⟨h1, h2⟩ := Finset.mem_product.mp ha
    have hb := Coord.toGravity_bounds (N := p.size) d
      (c := ⟨a.1, a.2⟩) (Finset.mem_range.mp h1) (Finset.mem_range.mp h2)
    exact Finset.mem_product.mpr ⟨Finset.mem_range.mpr hb.1, Finset.mem_range.mpr hb.2⟩
  · intro y hy
    obtain ⟨h1, h2⟩ := Finset.mem_product.mp hy
    have hb := Coord.fromGravity_bounds (N := p.size) d
      (Finset.mem_range.mp h1) (Finset.mem_range.mp h2)
    exact Finset.mem_product.mpr ⟨Finset.mem_range.mpr hb.1, Finset.mem_range.mpr hb.2⟩
  · intro a ha
    obtain ⟨h1, h2⟩ := Finset.mem_product.mp ha
    have := Coord.fromGravity_toGravity (N := p.size) d
      (c := ⟨a.1, a.2⟩) (Finset.mem_range.mp h1) (Finset.mem_range.mp h2)
    rw [this]
  · intro y hy
    obtain ⟨h1, h2⟩ := Finset.mem_product.mp hy
    have := Coord.toGravity_fromGravity (N := p.size) d
      (Finset.mem_range.mp h1) (Finset.mem_range.mp h2)
    rw [this]
  · intro a ha
    obtain ⟨h1, h2⟩ := Finset.mem_product.mp ha
    have := Coord.fromGravity_toGravity (N := p.size) d
      (c := ⟨a.1, a.2⟩) (Finset.mem_range.mp h1) (Finset.mem_range.mp h2)
    rw [this]

/-! ### Derived facts about `tilt` and `cycle` -/

theorem Platform.tilt_countRounds {p q : Platform} (hsq : p.Square) (d : Direction)
    (h : p.tilt d = some q) : q.countRounds = p.countRounds := by
  obtain ⟨q', hq', hq'sq, hq'sz, hlines⟩ := Platform.tilt_spec hsq d
  rw [h] at hq'
  obtain rfl : q = q' := Option.some.inj hq'
  rw [countRounds_eq_lines hq'sq d, countRounds_eq_lines hsq d, hq'sz]
  apply Finset.sum_congr rfl
  intro cross hcross
  rw [hlines cross (Finset.mem_range.mp hcross), countRound_settle]

theorem Platform.ext_cells {p q : Platform} (hpsq : p.Square) (hqsq : q.Square)
    (hsz : q.size = p.size) (h : ∀ c : Coord, q.get? c = p.get? c) : q = p := by
  obtain ⟨hplen, hprow⟩ := hpsq
  obtain ⟨hqlen, hqrow⟩ := hqsq
  cases p with
  | mk procks psize =>
    cases q with
    | mk qrocks qsize =>
      simp only at hplen hprow hqlen hqrow hsz
      simp only [Platform.mk.injEq]
      refine ⟨?_, hsz⟩
      apply List.ext_getElem?
      intro i
      by_cases hi : i < psize
      · have h1 : i < procks.length := by omega
        have h2 : i < qrocks.length := by omega
        have h3 : procks[i]? = some procks[i] := List.getElem?_eq_getElem h1
        have h4 : qrocks[i]? = some qrocks[i] := List.getElem?_eq_getElem h2
        rw [h3, h4]
        congr 1
        apply List.ext_getElem?
        intro j
        have h5 := h ⟨i, j⟩
        simp only [Platform.get?, h3, h4, Option.some_bind] at h5
        exact h5
      · have h1 : procks[i]? = none := by
          rw [List.getElem?_eq_none_iff]
          omega
        have h2 : qrocks[i]? = none := by
          rw [List.getElem?_eq_none_iff]
          omega
        rw [h1, h2]

theorem lines_eq_platform_eq {p q : Platform} (d : Direction) (hpsq : p.Square)
    (hqsq : q.Square) (hsz : q.size = p.size)
    (hl : ∀ cross, cross < p.size → lineOf q d cross = lineOf p d cross) : q = p := by
  apply Platform.ext_cells hpsq hqsq hsz
  intro c
  by_cases hc : c.row < p.size ∧ c.col < p.size
  · obtain ⟨hr, hcl⟩ := hc
    obtain ⟨hcr, hgr⟩ := Coord.toGravity_bounds (N := p.size) d hr hcl
    have hfg := Coord.fromGravity_toGravity (N := p.size) d hr hcl
    have e1 : q.get? c = (lineOf q d (c.toGravity d p.size).1)[(c.toGravity d p.size).2]? := by
      rw [lineOf_getElem? hqsq d (by omega) (by omega)]
      unfold lineGet
      rw [hsz, hfg]
    have e2 : p.get? c = (lineOf p d (c.toGravity d p.size).1)[(c.toGravity d p.size).2]? := by
      rw [lineOf_getElem? hpsq d hcr hgr]
      unfold lineGet
      rw [hfg]
    rw [e1, e2, hl _ hcr]
  · have hoob : p.size ≤ c.row ∨ p.size ≤ c.col := by omega
    rw [Platform.get?_eq_none_of_oob hpsq hoob,
      Platform.get?_eq_none_of_oob hqsq (by omega)]

theorem Platform.tilt_idem {p q : Platform} (hsq : p.Square) (d : Direction)
    (h : p.tilt d = some q) : q.tilt d = some q := by
  obtain ⟨q', hq', hq'sq, hq'sz, hlines⟩ := Platform.tilt_spec hsq d
  rw [h] at hq'
  obtain rfl : q = q' := Option.some.inj hq'
  obtain ⟨q₂, hq₂, hq₂sq, hq₂sz, hlines₂⟩ := Platform.tilt_spec hq'sq d
  have : q₂ = q := by
    apply lines_eq_platform_eq d hq'sq hq₂sq hq₂sz
    intro cross hcross
    rw [hlines₂ cross hcross, hlines cross (by omega), settle_idem]
  rw [hq₂, this]

theorem Platform.tilt_cube_frame {p q : Platform} (hsq : p.Square) (d : Direction)
    (h : p.tilt d = some q) (c : Coord) :
    (q.get? c = some Rock.Cube ↔ p.get? c = some Rock.Cube) := by
  obtain ⟨q', hq', hq'sq, hq'sz, hlines⟩ := Platform.tilt_spec hsq d
  rw [h] at hq'
  obtain rfl : q = q' := Option.some.inj hq'
  by_cases hc : c.row < p.size ∧ c.col < p.size
  · obtain ⟨hr, hcl⟩ := hc
    obtain ⟨hcr, hgr⟩ := Coord.toGravity_bounds (N := p.size) d hr hcl
    have hfg := Coord.fromGravity_toGravity (N := p.size) d hr hcl
    have e1 : q.get? c = (lineOf q d (c.toGravity d p.size).1)[(c.toGravity d p.size).2]? := by
      rw [lineOf_getElem? hq'sq d (by omega) (by omega)]
      unfold lineGet
      rw [hq'sz, hfg]
    have e2 : p.get? c = (lineOf p d (c.toGravity d p.size).1)[(c.toGravity d p.size).2]? := by
      rw [lineOf_getElem? hsq d hcr hgr]
      unfold lineGet
      rw [hfg]
    rw [e1, e2, hlines _ hcr]
    exact settle_cube_iff _ _
  · have hoob : p.size ≤ c.row ∨ p.size ≤ c.col := by omega
    rw [Platform.get?_eq_none_of_oob hsq hoob,
      Platform.get?_eq_none_of_oob hq'sq (by omega)]

theorem Platform.cycle_spec {p : Platform} (hsq : p.Square) :
    ∃ q, p.cycle = some q ∧ q.Square ∧ q.size = p.size ∧
      q.countRounds = p.countRounds := by
  obtain ⟨q1, h1, sq1, sz1, _⟩ := Platform.tilt_spec hsq Direction.North
  obtain ⟨q2, h2, sq2, sz2, _⟩ := Platform.tilt_spec sq1 Direction.West
  obtain ⟨q3, h3, sq3, sz3, _⟩ := Platform.tilt_spec sq2 Direction.South
  obtain ⟨q4, h4, sq4, sz4, _⟩ := Platform.tilt_spec sq3 Direction.East
  refine ⟨q4, ?_, sq4, by omega, ?_⟩
  · simp only [Platform.cycle, h1, h2, h3, h4]
  · rw [Platform.tilt_countRounds sq3 Direction.East h4,
      Platform.tilt_countRounds sq2 Direction.South h3,
      Platform.tilt_countRounds sq1 Direction.West h2,
      Platform.tilt_countRounds hsq Direction.North h1]

theorem Platform.cycle_countRounds {p q : Platform} (hsq : p.Square)
    (h : p.cycle = some q) : q.countRounds = p.countRounds := by
  obtain ⟨q', hq', _, _, hcnt⟩ := Platform.cycle_spec hsq
  rw [h] at hq'
  obtain rfl : q = q' := Option.some.inj hq'
  exact hcnt

/-! ### Load lemmas -/

theorem loadRow_foldl (size ri : Nat) (row : List Rock) (a : Nat) :
    row.foldl (fun acc rock => if rock = Rock.Round then acc + (size - ri) else acc) a
      = a + countRound row * (size - ri) := by
  induction row generalizing a with
  | nil => simp [countRound]
  | cons r t ih =>
    simp only [List.foldl_cons, countRound]
    by_cases h : r = Rock.Round
    · subst h
      rw [ih]
      have hone : (if Rock.Round = Rock.Round then (1 : Nat) else 0) = 1 := if_pos rfl
      have hacc : (if Rock.Round = Rock.Round then a + (size - ri) else a)
          = a + (size - ri) := if_pos rfl
      rw [hone, hacc, Nat.add_mul, Nat.one_mul]
      omega
    · rw [if_neg h, ih]
      simp [h]

theorem loadRow_eq (size ri : Nat) (row : List Rock) :
    loadRow size ri row = countRound row * (size - ri) := by
  unfold loadRow
  rw [loadRow_foldl]
  omega

theorem loadRows_eq_sum (size : Nat) (rocks : List (List Rock)) (base : Nat) :
    loadRows size base rocks = Finset.sum (Finset.range rocks.length)
      (fun i => countRound (rocks[i]?.getD []) * (size - (base + i))) := by
  induction rocks generalizing base with
  | nil => simp [loadRows]
  | cons a t ih =>
    simp only [loadRows, List.length_cons, Finset.sum_range_succ',
      List.getElem?_cons_succ, List.getElem?_cons_zero, Option.getD_some]
    rw [ih (base + 1), loadRow_eq]
    have harith : ∀ i : Nat, base + 1 + i = base + (i + 1) := by omega
    simp only [harith, Nat.add_zero]
    omega

theorem Platform.load_eq_sum (p : Platform) :
    p.load = Finset.sum (Finset.range p.rocks.length)
      (fun ri => countRound (p.rocks[ri]?.getD []) * (p.size - ri)) := by
  unfold Platform.load
  rw [loadRows_eq_sum]
  apply Finset.sum_congr rfl
  intro i _
  simp

theorem loadRows_eq_zero {size base : Nat} {rocks : List (List Rock)}
    (h : ∀ row ∈ rocks, countRound row = 0) : loadRows size base rocks = 0 := by
  induction rocks generalizing base with
  | nil => rfl
  | cons a t ih =>
    simp only [loadRows, loadRow_eq, h a (List.mem_cons_self a t), Nat.zero_mul, Nat.zero_add]
    exact ih (fun row hr => h row (List.mem_cons_of_mem a hr))

theorem Platform.load_eq_zero {p : Platform} (h : p.countRounds = 0) : p.load = 0 := by
  unfold Platform.load
  apply loadRows_eq_zero
  intro row hr
  have := List.sum_eq_zero_iff.mp h
  exact this (countRound row) (List.mem_map_of_mem countRound hr)

/-! ### Iterated cycles -/

theorem iterateCycle_total {p : Platform} (hsq : p.Square) (k : Nat) :
    ∃ g, iterateCycle k p = some g ∧ g.Square ∧ g.size = p.size ∧
      g.countRounds = p.countRounds := by
  induction k generalizing p with
  | zero => exact ⟨p, rfl, hsq, rfl, rfl⟩
  | succ k ih =>
    obtain ⟨q, hq, hqsq, hqsz, hqcnt⟩ := Platform.cycle_spec hsq
    obtain ⟨g, hg, hgsq, hgsz, hgcnt⟩ := ih hqsq
    refine ⟨g, ?_, hgsq, by omega, by omega⟩
    simp only [iterateCycle, hq]
    exact hg

theorem iterateCycle_add (m k : Nat) (p : Platform) :
    iterateCycle (m + k) p = (iterateCycle m p).bind (iterateCycle k) := by
  induction m generalizing p with
  | zero => simp [iterateCycle]
  | succ m ih =>
    have : m + 1 + k = (m + k) + 1 := by omega
    rw [this]
    simp only [iterateCycle]
    cases p.cycle with
    | none => rfl
    | some q => exact ih q

theorem iterateCycle_one (p : Platform) : iterateCycle 1 p = p.cycle := by
  simp only [iterateCycle]
  cases p.cycle <;> rfl

theorem iterateCycle_succ_right (n : Nat) (p : Platform) :
    iterateCycle (n + 1) p = (iterateCycle n p).bind Platform.cycle := by
  rw [iterateCycle_add n 1 p]
  cases iterateCycle n p with
  | none => rfl
  | some q => simp [iterateCycle_one]

theorem iterate_periodic {p : Platform} {a b : Nat}
    (hab : iterateCycle a p = iterateCycle b p) (k : Nat) :
    iterateCycle (a + k) p = iterateCycle (b + k) p := by
  rw [iterateCycle_add, iterateCycle_add, hab]

theorem iterate_mod {p : Platform} (offset len : Nat) (hlen : 0 < len)
    (hper : iterateCycle offset p = iterateCycle (offset + len) p) {T : Nat} (hT : offset ≤ T) :
    iterateCycle (offset + (T - offset) % len) p = iterateCycle T p := by
  have step : ∀ x, offset ≤ x → iterateCycle x p = iterateCycle (x + len) p := by
    intro x hx
    have h1 := iterate_periodic hper (x - offset)
    rw [show offset + (x - offset) = x by omega] at h1
    rw [show offset + len + (x - offset) = x + len by omega] at h1
    exact h1
  have main : ∀ q r', iterateCycle (offset + r') p = iterateCycle (offset + r' + q * len) p := by
    intro q
    induction q with
    | zero => simp
    | succ q ih =>
      intro r'
      rw [ih r', step (offset + r' + q * len) (by omega)]
      congr 1
      rw [Nat.succ_mul]
      omega
  have hmain := main ((T - offset) / len) ((T - offset) % len)
  rw [hmain]
  congr 1
  have hdm := Nat.div_add_mod (T - offset) len
  have hc : len * ((T - offset) / len) = ((T - offset) / len) * len := Nat.mul_comm _ _
  rw [hc] at hdm
  omega

/-! ### The detection loop -/

theorem gIter_eq {item : Platform} (hsq : item.Square) (i : Nat) :
    iterateCycle i item = some (gIter item i) := by
  obtain ⟨g, hg, _, _, _⟩ := iterateCycle_total hsq i
  rw [hg]
  simp [gIter, hg]

theorem gIter_square {item : Platform} (hsq : item.Square) (i : Nat) :
    (gIter item i).Square := by
  obtain ⟨g, hg, hgsq, _, _⟩ := iterateCycle_total hsq i
  have := gIter_eq hsq i
  rw [hg] at this
  rw [← Option.some.inj this]
  exact hgsq

theorem listPosition_some {h : Nat} {l : List Nat} {i : Nat}
    (hp : listPosition h l = some i) : l[i]? = some h := by
  induction l generalizing i with
  | nil => simp [listPosition] at hp
  | cons x t ih =>
    by_cases hx : x = h
    · simp only [listPosition, if_pos hx] at hp
      obtain rfl : i = 0 := (Option.some.inj hp).symm
      simp [hx]
    · simp only [listPosition, if_neg hx] at hp
      cases hpt : listPosition h t with
      | none => rw [hpt] at hp; simp at hp
      | some k =>
        rw [hpt] at hp
        simp only [Option.map_some'] at hp
        obtain rfl : i = k + 1 := (Option.some.inj hp).symm
        simp only [List.getElem?_cons_succ]
        exact ih hpt

theorem listPosition_none_iff {h : Nat} {l : List Nat} :
    listPosition h l = none ↔ ∀ x ∈ l, x ≠ h := by
  induction l with
  | nil => simp [listPosition]
  | cons x t ih =>
    by_cases hx : x = h
    · simp [listPosition, hx]
    · simp only [listPosition, if_neg hx]
      constructor
      · intro hp y hy
        rcases List.mem_cons.mp hy with rfl | hy
        · exact hx
        · cases hpt : listPosition h t with
          | none => exact (ih.mp hpt) y hy
          | some k => rw [hpt] at hp; simp at hp
      · intro hall
        have : listPosition h t = none := ih.mpr (fun y hy => hall y (List.mem_cons_of_mem x hy))
        rw [this]
        rfl

theorem detectAux_spec (hash : Platform → Nat) {item : Platform} (hsq : item.Square) (T : Nat) :
    ∀ fuel it p, it + fuel = T →
      iterateCycle it item = some p →
      (∀ i j, i < j → j < it → hash (gIter item i) ≠ hash (gIter item j)) →
      (detectAux hash ((List.range it).map (fun i => hash (gIter item i))) p it fuel
          = some (none, gIter item T) ∧
        (∀ i j, i < j → j < T → hash (gIter item i) ≠ hash (gIter item j))) ∨
      (∃ first s, it ≤ s ∧ s < T ∧ first < s ∧
        detectAux hash ((List.range it).map (fun i => hash (gIter item i))) p it fuel
          = some (some ⟨first, s - first⟩, gIter item s) ∧
        hash (gIter item first) = hash (gIter item s) ∧
        (∀ i j, i < j → j < s → hash (gIter item i) ≠ hash (gIter item j))) := by
  intro fuel
  induction fuel with
  | zero =>
    intro it p hit hp hnc
    obtain rfl : T = it := by omega
    left
    have hpg : p = gIter item T := by
      have := gIter_eq hsq T
      rw [hp] at this
      exact Option.some.inj this
    rw [hpg]
    exact ⟨rfl, hnc⟩
  | succ fuel ih =>
    intro it p hit hp hnc
    have hpg : p = gIter item it := by
      have := gIter_eq hsq it
      rw [hp] at this
      exact Option.some.inj this
    have hitT : it < T := by omega
    cases hpos : listPosition (hash p)
        ((List.range it).map (fun i => hash (gIter item i))) with
    | some first =>
      right
      have hfe := listPosition_some hpos
      have hflen : first < it := by
        have := (List.getElem?_eq_some_iff.mp hfe).1
        simpa using this
      have hfh : hash (gIter item first) = hash p := by
        have : ((List.range it).map (fun i => hash (gIter item i)))[first]?
            = some (hash (gIter item first)) := by
          simp [List.getElem?_map, List.getElem?_range, hflen]
        rw [this] at hfe
        exact Option.some.inj hfe
      refine ⟨first, it, Nat.le_refl it, hitT, hflen, ?_, by rw [hfh, hpg], hnc⟩
      simp only [detectAux, hpos]
      rw [hpg]
    | none =>
      have hnc' : ∀ i j, i < j → j < it + 1 → hash (gIter item i) ≠ hash (gIter item j) := by
        intro i j hij hj1
        by_cases hjit : j < it
        · exact hnc i j hij hjit
        · obtain rfl : j = it := by omega
          have hall := listPosition_none_iff.mp hpos
          intro heq
          apply hall (hash (gIter item i)) ?_ (by rw [heq, hpg])
          exact List.mem_map_of_mem _ (List.mem_range.mpr hij)
      obtain ⟨p', hcy, hp'sq, _, _⟩ := Platform.cycle_spec (hpg ▸ gIter_square hsq it)
      have hp' : iterateCycle (it + 1) item = some p' := by
        rw [iterateCycle_succ_right, hp]
        simpa using hcy
      have hobs : (List.range it).map (fun i => hash (gIter item i)) ++ [hash p]
          = (List.range (it + 1)).map (fun i => hash (gIter item i)) := by
        rw [List.range_succ, List.map_append]
        simp [hpg]
      have hrec := ih (it + 1) p' (by omega) hp' hnc'
      have hstep : detectAux hash ((List.range it).map (fun i => hash (gIter item i))) p it
          (fuel + 1) = detectAux hash ((List.range (it + 1)).map
            (fun i => hash (gIter item i))) p' (it + 1) fuel := by
        simp only [detectAux, hpos, hcy]
        rw [hobs]
      rcases hrec with ⟨heq, hcol⟩ | ⟨first, s, hits, hsT, hfs, heq, hcol, hnc₂⟩
      · left
        exact ⟨by rw [hstep]; exact heq, hcol⟩
      · right
        exact ⟨first, s, by omega, hsT, hfs, by rw [hstep]; exact heq, hcol, hnc₂⟩

theorem part2_core {hash : Platform → Nat} {item : Platform} (hsq : item.Square) (T : Nat)
    (Hprec : ∀ i j, i < j → j ≤ T →
      hash (gIter item i) = hash (gIter item j) →
      (∀ a b, a < b → b < j → hash (gIter item a) ≠ hash (gIter item b)) →
      gIter item i = gIter item j) :
    part2Solve hash T item = (iterateCycle T item).map Platform.load ∧
    (∀ offset length pf, detectAux hash [] item 0 T = some (some ⟨offset, length⟩, pf) →
      iterateCycle (offset + (T - offset) % length) item = iterateCycle T item) := by
  have hd := detectAux_spec hash hsq T T 0 item (by omega) rfl
    (by intro i j hij hj; omega)
  have h0 : ((List.range 0).map (fun i => hash (gIter item i))) = ([] : List Nat) := by simp
  rw [h0] at hd
  rcases hd with ⟨heq, _⟩ | ⟨first, s, _, hsT, hfs, heq, hcol, hnc⟩
  · constructor
    · unfold part2Solve
      rw [heq, gIter_eq hsq T]
      rfl
    · intro offset length pf hdet
      rw [heq] at hdet
      simp at hdet
  · have hper : iterateCycle first item = iterateCycle s item := by
      have hg := Hprec first s hfs (by omega) hcol hnc
      rw [gIter_eq hsq first, gIter_eq hsq s, hg]
    have hmod := iterate_mod (p := item) first (s - first)
        (by omega)
        (by rw [show first + (s - first) = s by omega]; exact hper)
        (T := T) (by omega)
    constructor
    · unfold part2Solve
      rw [heq]
      simp only
      rw [hmod]
    · intro offset length pf hdet
      rw [heq] at hdet
      simp only [Option.some.injEq, Prod.mk.injEq, CycleRec.mk.injEq] at hdet
      obtain ⟨⟨h1, h2⟩, _⟩ := hdet
      rw [h2, h1] at hmod
      exact hmod

theorem part2_nocollision {hash : Platform → Nat} {item : Platform} (hsq : item.Square)
    (T : Nat)
    (H : ∀ i j, i < j → j < T → hash (gIter item i) ≠ hash (gIter item j)) :
    part2Solve hash T item = (iterateCycle T item).map Platform.load := by
  have hd := detectAux_spec hash hsq T T 0 item (by omega) rfl
    (by intro i j hij hj; omega)
  have h0 : ((List.range 0).map (fun i => hash (gIter item i))) = ([] : List Nat) := by simp
  rw [h0] at hd
  rcases hd with ⟨heq, _⟩ | ⟨first, s, _, hsT, hfs, _, hcol, _⟩
  · unfold part2Solve
    rw [heq, gIter_eq hsq T]
    rfl
  · exact absurd hcol (H first s hfs hsT)

/-! ### Parsing lemmas -/

theorem rockTryFrom_error {c : Char} (h1 : c ≠ 'O') (h2 : c ≠ '#') (h3 : c ≠ '.') :
    rockTryFrom c = Except.error Day14Error.InvalidRock := by
  unfold rockTryFrom
  split <;> simp_all

theorem rockTryFrom_ok {c : Char} (h : c ∈ (['O', '#', '.'] : List Char)) :
    rockTryFrom c = Except.ok (forceRock c) := by
  simp only [List.mem_cons, List.not_mem_nil, or_false] at h
  rcases h with rfl | rfl | rfl <;> rfl

theorem mapExcept_ok_of_all {α β : Type} {f : α → Except Day14Error β} {l : List α}
    (g : α → β) (h : ∀ a ∈ l, f a = Except.ok (g a)) :
    mapExcept f l = Except.ok (l.map g) := by
  induction l with
  | nil => rfl
  | cons x t ih =>
    simp only [mapExcept, h x (List.mem_cons_self x t),
      ih (fun a ha => h a (List.mem_cons_of_mem x ha)), List.map_cons]

theorem mapExcept_error {α β : Type} {f : α → Except Day14Error β} {l : List α} {a : α}
    (ha : a ∈ l) (he : f a = Except.error Day14Error.InvalidRock) :
    mapExcept f l = Except.error Day14Error.InvalidRock := by
  induction l with
  | nil => simp at ha
  | cons x t ih =>
    rcases List.mem_cons.mp ha with rfl | ha'
    · simp only [mapExcept, he]
    · unfold mapExcept
      cases hfx : f x with
      | error e => cases e; rfl
      | ok b => rw [ih ha']

theorem splitWs_sound : ∀ (s : List Char), ∀ t ∈ splitWs s, ∀ c ∈ t,
    c ∈ s ∧ rustIsWhitespace c = false := by
  have key : ∀ (n : Nat) (s : List Char), s.length ≤ n → ∀ t ∈ splitWs s, ∀ c ∈ t,
      c ∈ s ∧ rustIsWhitespace c = false := by
    intro n
    induction n with
    | zero =>
      intro s hs t ht c hc
      have : s = [] := List.length_eq_zero.mp (by omega)
      subst this
      simp [splitWs, splitWsF] at ht
    | succ n ihn =>
      intro s hs t ht c hc
      cases s with
      | nil => simp [splitWs, splitWsF] at ht
      | cons c₀ t₀ =>
        rw [splitWs_cons] at ht
        by_cases hws : rustIsWhitespace c₀
        · rw [if_pos hws] at ht
          obtain ⟨hmem, hnw⟩ := ihn t₀ (by simp at hs; omega) t ht c hc
          exact ⟨List.mem_cons_of_mem c₀ hmem, hnw⟩
        · rw [if_neg hws] at ht
          rcases List.mem_cons.mp ht with rfl | ht'
          · rcases List.mem_cons.mp hc with rfl | hc'
            · exact ⟨List.mem_cons_self c t₀, by simpa using hws⟩
            · refine ⟨List.mem_cons_of_mem c₀
                ((List.takeWhile_sublist _).mem hc'), ?_⟩
              have := List.mem_takeWhile_imp hc'
              simpa using this
          · have hlen : (t₀.dropWhile (fun x => !rustIsWhitespace x)).length ≤ n := by
              have := length_dropWhileNotWs_le t₀
              simp at hs
              omega
            obtain ⟨hmem, hnw⟩ := ihn _ hlen t ht' c hc
            exact ⟨List.mem_cons_of_mem c₀ ((List.dropWhile_sublist _).mem hmem), hnw⟩
  intro s
  exact key s.length s (Nat.le_refl _)

theorem splitWs_complete : ∀ (s : List Char), ∀ c ∈ s, rustIsWhitespace c = false →
    ∃ t ∈ splitWs s, c ∈ t := by
  have key : ∀ (n : Nat) (s : List Char), s.length ≤ n → ∀ c ∈ s,
      rustIsWhitespace c = false → ∃ t ∈ splitWs s, c ∈ t := by
    intro n
    induction n with
    | zero =>
      intro s hs c hc _
      have : s = [] := List.length_eq_zero.mp (by omega)
      subst this
      simp at hc
    | succ n ihn =>
      intro s hs c hc hnw
      cases s with
      | nil => simp at hc
      | cons c₀ t₀ =>
        rw [splitWs_cons]
        by_cases hws : rustIsWhitespace c₀
        · rw [if_pos hws]
          have hc' : c ∈ t₀ := by
            rcases List.mem_cons.mp hc with rfl | hc'
            · rw [hws] at hnw
              simp at hnw
            · exact hc'
          exact ihn t₀ (by simp at hs; omega) c hc' hnw
        · rw [if_neg hws]
          rcases List.mem_cons.mp hc with rfl | hc'
          · exact ⟨c :: t₀.takeWhile (fun x => !rustIsWhitespace x),
              List.mem_cons_self _ _, List.mem_cons_self _ _⟩
          · have hsplit : c ∈ t₀.takeWhile (fun x => !rustIsWhitespace x) ∨
                c ∈ t₀.dropWhile (fun x => !rustIsWhitespace x) := by
              have happ : t₀.takeWhile (fun x => !rustIsWhitespace x) ++
                  t₀.dropWhile (fun x => !rustIsWhitespace x) = t₀ :=
                List.takeWhile_append_dropWhile _ _
              have hmm : c ∈ t₀.takeWhile (fun x => !rustIsWhitespace x) ++
                  t₀.dropWhile (fun x => !rustIsWhitespace x) := by
                rw [happ]
                exact hc'
              exact List.mem_append.mp hmm
            rcases hsplit with hcc | hcc
            · exact ⟨c₀ :: t₀.takeWhile (fun x => !rustIsWhitespace x),
                List.mem_cons_self _ _, List.mem_cons_of_mem c₀ hcc⟩
            · have hlen : (t₀.dropWhile (fun x => !rustIsWhitespace x)).length ≤ n := by
                have := length_dropWhileNotWs_le t₀
                simp at hs
                omega
              obtain ⟨t, ht, hct⟩ := ihn _ hlen c hcc hnw
              exact ⟨t, List.mem_cons_of_mem _ ht, hct⟩
  intro s
  exact key s.length s (Nat.le_refl _)

theorem platformFromStr_ok {s : List Char}
    (h : ∀ c ∈ s, rustIsWhitespace c = true ∨ c ∈ (['O', '#', '.'] : List Char)) :
    platformFromStr s = Except.ok
      { rocks := (splitWs s).map (List.map forceRock),
        size := ((splitWs s).map (List.map forceRock)).length } := by
  unfold platformFromStr
  have hall : mapExcept (fun line => mapExcept rockTryFrom line) (splitWs s)
      = Except.ok ((splitWs s).map (List.map forceRock)) := by
    apply mapExcept_ok_of_all
    intro line hline
    apply mapExcept_ok_of_all
    intro c hc
    obtain ⟨hmem, hnw⟩ := splitWs_sound s line hline c hc
    rcases h c hmem with hws | halpha
    · rw [hws] at hnw
      simp at hnw
    · exact rockTryFrom_ok halpha
  rw [hall]

theorem platformFromStr_error {s : List Char} {c : Char} (hc : c ∈ s)
    (hnw : rustIsWhitespace c = false) (halpha : c ∉ (['O', '#', '.'] : List Char)) :
    platformFromStr s = Except.error Day14Error.InvalidRock := by
  obtain ⟨t, ht, hct⟩ := splitWs_complete s c hc hnw
  have herr : rockTryFrom c = Except.error Day14Error.InvalidRock := by
    apply rockTryFrom_error <;> intro hcc <;> subst hcc <;> simp at halpha
  unfold platformFromStr
  rw [mapExcept_error ht (mapExcept_error hct herr)]

/-! ### Claim theorems -/

/-- Claim C1: for every square grid and target cycle count `T`, `Part2::solve`
returns the load of the grid obtained by literally applying the cycle operator
`T` times; moreover when a cycle record `(offset, length)` is detected,
re-simulating `offset + ((T - offset) % length)` cycles from the original grid
yields the same grid as simulating `T` cycles — under the precondition that
no two distinct grid states observed during detection share a fingerprint
(formalised as: any first fingerprint collision among the iterates within the
horizon relates equal grid states). -/
theorem claim1_part2_solve_correct (hash : Platform → Nat) (T : Nat) (item : Platform)
    (hsq : item.Square)
    (Hfp : ∀ i j, i < j → j ≤ T →
      hash (gIter item i) = hash (gIter item j) →
      (∀ a b, a < b → b < j → hash (gIter item a) ≠ hash (gIter item b)) →
      gIter item i = gIter item j) :
    part2Solve hash T item = (iterateCycle T item).map Platform.load ∧
    (∀ offset length pf, detectAux hash [] item 0 T = some (some ⟨offset, length⟩, pf) →
      iterateCycle (offset + (T - offset) % length) item = iterateCycle T item) :=
  part2_core hsq T Hfp

theorem claim1_witness :
    Platform.Square ⟨[[Rock.Round]], 1⟩ ∧
    part2Solve (fun _ => 0) 2 ⟨[[Rock.Round]], 1⟩
      = (iterateCycle 2 ⟨[[Rock.Round]], 1⟩).map Platform.load :=
  ⟨by decide,
    (claim1_part2_solve_correct (fun _ => 0) 2 ⟨[[Rock.Round]], 1⟩ (by decide)
      (fun i j hij hjT hh hfirst => by
        interval_cases j <;> interval_cases i <;> decide)).1⟩

/-- Claim C2: for every square grid, the total count of `Round` cells is
identical before and after any tilt, and before and after any spin cycle. -/
theorem claim2_conservation (p : Platform) (hsq : p.Square) :
    (∀ d q, p.tilt d = some q → q.countRounds = p.countRounds) ∧
    (∀ q, p.cycle = some q → q.countRounds = p.countRounds) :=
  ⟨fun d q h => Platform.tilt_countRounds hsq d h,
   fun q h => Platform.cycle_countRounds hsq h⟩

theorem claim2_witness :
    Platform.Square ⟨[[Rock.Round, Rock.Empty], [Rock.Cube, Rock.Round]], 2⟩ ∧
    (∀ d q, Platform.tilt ⟨[[Rock.Round, Rock.Empty], [Rock.Cube, Rock.Round]], 2⟩ d = some q →
      q.countRounds = Platform.countRounds ⟨[[Rock.Round, Rock.Empty], [Rock.Cube, Rock.Round]], 2⟩) :=
  ⟨by decide,
    (claim2_conservation ⟨[[Rock.Round, Rock.Empty], [Rock.Cube, Rock.Round]], 2⟩ (by decide)).1⟩

/-- Claim C3: idempotence of a settled tilt — for every square grid and
direction, applying the same-direction tilt to an already tilted grid
returns that grid unchanged. -/
theorem claim3_tilt_idem (p : Platform) (d : Direction) (q : Platform) (hsq : p.Square)
    (h : p.tilt d = some q) : q.tilt d = some q :=
  Platform.tilt_idem hsq d h

theorem claim3_witness :
    Platform.Square ⟨[[Rock.Empty, Rock.Round], [Rock.Round, Rock.Empty]], 2⟩ ∧
    Platform.tilt ⟨[[Rock.Empty, Rock.Round], [Rock.Round, Rock.Empty]], 2⟩ Direction.North
      = some ⟨[[Rock.Round, Rock.Round], [Rock.Empty, Rock.Empty]], 2⟩ ∧
    Platform.tilt ⟨[[Rock.Round, Rock.Round], [Rock.Empty, Rock.Empty]], 2⟩ Direction.North
      = some ⟨[[Rock.Round, Rock.Round], [Rock.Empty, Rock.Empty]], 2⟩ :=
  ⟨by decide, by decide,
    claim3_tilt_idem ⟨[[Rock.Empty, Rock.Round], [Rock.Round, Rock.Empty]], 2⟩ Direction.North
      ⟨[[Rock.Round, Rock.Round], [Rock.Empty, Rock.Empty]], 2⟩ (by decide) (by decide)⟩

/-- Claim C4: for each direction and size `N`, the map
`(cross, grav) ↦ Coord.fromGravity cross grav d N` restricted to
`[0,N) × [0,N)` is a bijection onto the in-bounds cells, and gravity index 0
maps to the edge rocks are pulled toward (row 0 for North, row `N-1` for
South, column 0 for West, column `N-1` for East). -/
theorem claim4_from_gravity_bijection (d : Direction) (N : Nat) :
    (∀ c : Coord, c.row < N → c.col < N →
      ∃! cg : Nat × Nat, cg.1 < N ∧ cg.2 < N ∧ Coord.fromGravity cg.1 cg.2 d N = c) ∧
    (∀ ci, ci < N →
      (d = Direction.North → (Coord.fromGravity ci 0 d N).row = 0) ∧
      (d = Direction.South → (Coord.fromGravity ci 0 d N).row = N - 1) ∧
      (d = Direction.West → (Coord.fromGravity ci 0 d N).col = 0) ∧
      (d = Direction.East → (Coord.fromGravity ci 0 d N).col = N - 1)) := by
  constructor
  · intro c hr hc
    obtain ⟨hb1, hb2⟩ := Coord.toGravity_bounds (N := N) d hr hc
    refine ⟨c.toGravity d N, ⟨hb1, hb2, Coord.fromGravity_toGravity d hr hc⟩, ?_⟩
    intro y ⟨hy1, hy2, hyeq⟩
    have heq2 : Coord.fromGravity y.1 y.2 d N
        = Coord.fromGravity (c.toGravity d N).1 (c.toGravity d N).2 d N := by
      rw [hyeq, Coord.fromGravity_toGravity d hr hc]
    obtain ⟨e1, e2⟩ := Coord.fromGravity_inj d hy1 hy2 hb1 hb2 heq2
    exact Prod.ext e1 e2
  · intro ci hci
    refine ⟨?_, ?_, ?_, ?_⟩ <;> intro hd <;> subst hd <;> simp [Coord.fromGravity]

theorem claim4_witness :
    (∃! cg : Nat × Nat, cg.1 < 2 ∧ cg.2 < 2 ∧
      Coord.fromGravity cg.1 cg.2 Direction.North 2 = ⟨1, 0⟩) ∧
    (Coord.fromGravity 1 0 Direction.South 2).row = 2 - 1 :=
  ⟨(claim4_from_gravity_bijection Direction.North 2).1 ⟨1, 0⟩ (by decide) (by decide),
   ((claim4_from_gravity_bijection Direction.South 2).2 1 (by decide)).2.1 rfl⟩

/-- Claim C5 (amended): parsing does not reject ragged input.  Any text block
whose non-whitespace characters all belong to the alphabet parses
successfully — regardless of the line lengths — into a platform whose rows
are the whitespace-separated tokens and whose size is the number of tokens. -/
theorem claim5_ragged_accepted (s : List Char)
    (h : ∀ c ∈ s, rustIsWhitespace c = true ∨ c ∈ (['O', '#', '.'] : List Char)) :
    ∃ p, platformFromStr s = Except.ok p ∧
      p.rocks = (splitWs s).map (List.map forceRock) ∧
      p.size = ((splitWs s).map (List.map forceRock)).length :=
  ⟨_, platformFromStr_ok h, rfl, rfl⟩

/-- Claim C5 counterexample: the ragged input "OO\nO" (line lengths 2 and 1)
is accepted by the parser, contradicting the claim that non-rectangular input
fails with a `ParseError` at construction. -/
theorem claim5_counterexample :
    (splitWs ['O', 'O', '\n', 'O']).map List.length = [2, 1] ∧
    platformFromStr ['O', 'O', '\n', 'O']
      = Except.ok ⟨[[Rock.Round, Rock.Round], [Rock.Round]], 2⟩ := by
  constructor <;> decide

theorem claim5_witness :
    (∀ c ∈ (['O', 'O', '\n', 'O'] : List Char),
      rustIsWhitespace c = true ∨ c ∈ (['O', '#', '.'] : List Char)) ∧
    ∃ p, platformFromStr ['O', 'O', '\n', 'O'] = Except.ok p ∧
      p.rocks = (splitWs ['O', 'O', '\n', 'O']).map (List.map forceRock) ∧
      p.size = ((splitWs ['O', 'O', '\n', 'O']).map (List.map forceRock)).length :=
  ⟨by decide, claim5_ragged_accepted ['O', 'O', '\n', 'O'] (by decide)⟩

/-- Claim C6: fixed rocks stay in place — for every square grid, direction and
coordinate, the cell at that coordinate is `Cube` after a tilt if and only if
it was `Cube` before. -/
theorem claim6_cube_frame (p : Platform) (d : Direction) (q : Platform) (hsq : p.Square)
    (h : p.tilt d = some q) :
    ∀ c : Coord, (q.get? c = some Rock.Cube ↔ p.get? c = some Rock.Cube) :=
  Platform.tilt_cube_frame hsq d h

theorem claim6_witness :
    Platform.Square ⟨[[Rock.Cube, Rock.Empty], [Rock.Empty, Rock.Round]], 2⟩ ∧
    Platform.tilt ⟨[[Rock.Cube, Rock.Empty], [Rock.Empty, Rock.Round]], 2⟩ Direction.North
      = some ⟨[[Rock.Cube, Rock.Round], [Rock.Empty, Rock.Empty]], 2⟩ ∧
    (Platform.get? ⟨[[Rock.Cube, Rock.Round], [Rock.Empty, Rock.Empty]], 2⟩ ⟨0, 0⟩
        = some Rock.Cube ↔
      Platform.get? ⟨[[Rock.Cube, Rock.Empty], [Rock.Empty, Rock.Round]], 2⟩ ⟨0, 0⟩
        = some Rock.Cube) :=
  ⟨by decide, by decide,
    claim6_cube_frame ⟨[[Rock.Cube, Rock.Empty], [Rock.Empty, Rock.Round]], 2⟩ Direction.North
      ⟨[[Rock.Cube, Rock.Round], [Rock.Empty, Rock.Empty]], 2⟩ (by decide) (by decide) ⟨0, 0⟩⟩

/-- Claim C7: the load of an `N × N` grid is the sum over rows of
(number of `Round` cells in the row) times `(N - row_index)`, with the row
index 0-based from the north edge; a grid with no `Round` cells has load 0,
both as is and after any tilt. -/
theorem claim7_load (p : Platform) (hsq : p.Square) :
    p.load = Finset.sum (Finset.range p.size)
      (fun ri => countRound (p.rocks[ri]?.getD []) * (p.size - ri)) ∧
    (p.countRounds = 0 → p.load = 0 ∧ ∀ d q, p.tilt d = some q → q.load = 0) := by
  constructor
  · rw [Platform.load_eq_sum, hsq.1]
  · intro h0
    refine ⟨Platform.load_eq_zero h0, ?_⟩
    intro d q hq
    apply Platform.load_eq_zero
    rw [Platform.tilt_countRounds hsq d hq, h0]

theorem claim7_witness :
    Platform.Square ⟨[[Rock.Cube, Rock.Empty], [Rock.Empty, Rock.Empty]], 2⟩ ∧
    (Platform.countRounds ⟨[[Rock.Cube, Rock.Empty], [Rock.Empty, Rock.Empty]], 2⟩ = 0 →
      Platform.load ⟨[[Rock.Cube, Rock.Empty], [Rock.Empty, Rock.Empty]], 2⟩ = 0 ∧
      ∀ d q, Platform.tilt ⟨[[Rock.Cube, Rock.Empty], [Rock.Empty, Rock.Empty]], 2⟩ d = some q →
        q.load = 0) :=
  ⟨by decide,
    (claim7_load ⟨[[Rock.Cube, Rock.Empty], [Rock.Empty, Rock.Empty]], 2⟩ (by decide)).2⟩

/-- Claim C8: parsing maps 'O' to `Round`, '#' to `Cube` and '.' to `Empty`,
and any input containing a non-whitespace character outside the alphabet
fails with the parse error and produces no grid. -/
theorem claim8_char_mapping :
    (rockTryFrom 'O' = Except.ok Rock.Round ∧ rockTryFrom '#' = Except.ok Rock.Cube ∧
      rockTryFrom '.' = Except.ok Rock.Empty) ∧
    (∀ (s : List Char) (c : Char), c ∈ s → rustIsWhitespace c = false →
      c ∉ (['O', '#', '.'] : List Char) →
      platformFromStr s = Except.error Day14Error.InvalidRock) :=
  ⟨⟨rfl, rfl, rfl⟩, fun _ _ hc hnw ha => platformFromStr_error hc hnw ha⟩

theorem claim8_witness :
    platformFromStr ['O', 'X'] = Except.error Day14Error.InvalidRock :=
  claim8_char_mapping.2 ['O', 'X'] 'X' (by decide) (by decide) (by decide)

/-- Claim C9: if no fingerprint repetition is observed during the first `T`
iterations, `Part2::solve` returns the load of the grid after exactly `T`
literal cycles; in particular with `T = 0` it returns the load of the
unmodified input grid. -/
theorem claim9_degenerate (hash : Platform → Nat) (T : Nat) (item : Platform)
    (hsq : item.Square)
    (H : ∀ i j, i < j → j < T → hash (gIter item i) ≠ hash (gIter item j)) :
    part2Solve hash T item = (iterateCycle T item).map Platform.load ∧
    (T = 0 → part2Solve hash T item = some item.load) := by
  have h1 := part2_nocollision hsq T H
  refine ⟨h1, ?_⟩
  intro hT
  subst hT
  rw [h1]
  rfl

theorem claim9_witness :
    Platform.Square ⟨[[Rock.Round]], 1⟩ ∧
    part2Solve (fun _ => 0) 0 ⟨[[Rock.Round]], 1⟩
      = some (Platform.load ⟨[[Rock.Round]], 1⟩) :=
  ⟨by decide,
    (claim9_degenerate (fun _ => 0) 0 ⟨[[Rock.Round]], 1⟩ (by decide)
      (fun i j hij hj => absurd hj (by omega))).2 rfl⟩

/-- Claim C10: under the squareness precondition, `from_gravity` with
in-range cross and gravity indices always produces an in-bounds coordinate,
and tilt, cycle and iterated cycles never hit the out-of-bounds error branch
of the embedding — they always return a value. -/
theorem claim10_safety :
    (∀ (d : Direction) (N ci gi : Nat), ci < N → gi < N →
      (Coord.fromGravity ci gi d N).row < N ∧ (Coord.fromGravity ci gi d N).col < N) ∧
    (∀ p : Platform, p.Square →
      (∀ d, ∃ q, p.tilt d = some q) ∧ (∃ q, p.cycle = some q) ∧
      (∀ k, ∃ g, iterateCycle k p = some g)) := by
  constructor
  · intro d N ci gi hc hg
    exact Coord.fromGravity_bounds d hc hg
  · intro p hsq
    refine ⟨fun d => ?_, ?_, fun k => ?_⟩
    · obtain ⟨q, hq, _, _, _⟩ := Platform.tilt_spec hsq d
      exact ⟨q, hq⟩
    · obtain ⟨q, hq, _, _, _⟩ := Platform.cycle_spec hsq
      exact ⟨q, hq⟩
    · obtain ⟨g, hg, _, _, _⟩ := iterateCycle_total hsq k
      exact ⟨g, hg⟩

theorem claim10_witness :
    ((Coord.fromGravity 1 0 Direction.East 2).row < 2 ∧
      (Coord.fromGravity 1 0 Direction.East 2).col < 2) ∧
    (∃ q, Platform.tilt ⟨[[Rock.Round, Rock.Empty], [Rock.Cube, Rock.Round]], 2⟩
      Direction.West = some q) :=
  ⟨claim10_safety.1 Direction.East 2 1 0 (by decide) (by decide),
    (claim10_safety.2 ⟨[[Rock.Round, Rock.Empty], [Rock.Cube, Rock.Round]], 2⟩
      (by decide)).1 Direction.West⟩
